import Mathlib

/-!
# Verification of the `color_classification` repository (`data_utils` crate)

A shallow embedding of the core data model and algorithms of the repository:
complex scalars (`crates/data_utils/src/complex.rs`), point vectors
(`crates/data_utils/src/lin_alg.rs`), the partial-sort selection primitive
(`crates/data_utils/src/sort.rs`), and the classifiers
(`crates/data_utils/src/classify/{bayes,knn,perceptron}.rs`).

Modelling conventions:
* IEEE-754 `f64` values are modelled by exact rationals `ℚ`.  The spec's
  algebraic claims are about the ideal arithmetic the code implements;
  `NaN` and `-0.0` have no counterpart in this model.
* `f64::sqrt` and `f64::hypot` are modelled as opaque function parameters
  (`sq`, `hyp`); the code only feeds their results into comparisons.
* Rust `HashMap`/`HashSet` iteration order is unspecified (randomly seeded
  per map); it is modelled as an explicit reordering parameter which the
  theorems quantify over (with a permutation hypothesis where needed).
* Panics (`assert!`, slice indexing, `expect`, `unwrap`) are modelled by
  `Option`, with `none` for a panic.
-/

namespace CC

/-- Complex scalar from `complex.rs`: a pair of `f64` (modelled as `ℚ`). -/
structure CComplex where
  re : ℚ
  im : ℚ
deriving DecidableEq, Repr

/-- `Complex::default()`: both components zero. -/
def czero : CComplex := ⟨0, 0⟩

/-- `impl AddAssign for Complex` (componentwise). -/
def cadd (a b : CComplex) : CComplex := ⟨a.re + b.re, a.im + b.im⟩

/-- `impl SubAssign for Complex` (componentwise). -/
def csub (a b : CComplex) : CComplex := ⟨a.re - b.re, a.im - b.im⟩

/-- `impl MulAssign for Complex`: `(ac − bd) + (ad + bc)i`. -/
def cmul (a b : CComplex) : CComplex :=
  ⟨a.re * b.re - a.im * b.im, a.re * b.im + a.im * b.re⟩

/-- `Complex::scale`: multiply both components by a real scalar. -/
def cscale (a : CComplex) (s : ℚ) : CComplex := ⟨a.re * s, a.im * s⟩

/-- `Complex::conjugate`: `self.im *= -1.0`. -/
def conj (a : CComplex) : CComplex := ⟨a.re, a.im * (-1)⟩

/-- `impl Neg for Complex`: `self.scale(-1.0)`. -/
def cneg (a : CComplex) : CComplex := cscale a (-1)

/-- `impl Sum for Complex`: `iter.fold(Self::default(), |a, b| a + b)`. -/
def csum (l : List CComplex) : CComplex := l.foldl cadd czero

/-- `Complex::magnitude`: returns `re` directly when `im == 0`, else
`hypot(re, im)`; `hyp` models `f64::hypot`. -/
def cmag (hyp : ℚ → ℚ → ℚ) (a : CComplex) : ℚ :=
  if a.im = 0 then a.re else hyp a.re a.im

/-- Point vector from `lin_alg.rs`: `Point(pub Vec<Complex>)`. -/
abbrev Point := List CComplex

/-- `impl Add for Point` (by value, lines 96-118): mutate the longer
operand's buffer in place, adding the shorter one componentwise; the
longer operand's tail is kept unchanged. -/
def padd (a b : Point) : Point :=
  if b.length ≤ a.length then List.zipWith cadd a b ++ a.drop b.length
  else List.zipWith cadd b a ++ b.drop a.length

/-- `Point::scale`: scale every component. -/
def pscale (p : Point) (s : ℚ) : Point := p.map (fun x => cscale x s)

/-- `impl Neg for Point`: `self.scale(-1.0)`. -/
def pneg (p : Point) : Point := pscale p (-1)

/-- `impl Sub for Point` (by value, lines 194-216): if `self` has at least
as many dimensions, subtract `rhs` into `self`'s buffer; otherwise compute
`-(rhs - self)` in `rhs`'s buffer.  The borrowed impl (lines 218-239), used
by `knn.rs`, computes the same function. -/
def psub (a b : Point) : Point :=
  if b.length ≤ a.length then List.zipWith csub a b ++ a.drop b.length
  else pneg (List.zipWith csub b a ++ b.drop a.length)

/-- `Point::dot`: zip the two component vectors (truncating at the shorter
one), multiply pairwise, and sum. -/
def pdot (a b : Point) : CComplex := csum (List.zipWith cmul a b)

/-- `impl Sum for Point`: `iter.fold(Self::default(), |a, b| a + b)`. -/
def psum (l : List Point) : Point := l.foldl padd []

/-- The conjugated mean used by `bayes.rs` (loop at lines 50-53):
conjugate every component. -/
def conjP (p : Point) : Point := p.map conj

/-- `Point::magnitude`: `sqrt((Σ x·conj(x)).magnitude())`; `sq` models
`f64::sqrt` and `hyp` models `f64::hypot`. -/
def pmag (sq : ℚ → ℚ) (hyp : ℚ → ℚ → ℚ) (p : Point) : ℚ :=
  sq (cmag hyp (csum (p.map (fun x => cmul x (conj x)))))

/-! ## The selection primitive (`sort.rs`, `partial_sort_by`)

The inner loop `for j in (i..(self.len() - 1)).rev()` walks from the end of
the suffix starting at `i` down to `i`, swapping adjacent out-of-order
pairs, so the suffix minimum bubbles to position `i`; positions below `i`
are never touched.  `bubbleMin` is that inner loop on the suffix, and
`partialSortBy` is the outer loop `for i in 0..num_sorted`. -/

/-- One inner pass of `partial_sort_by`: compare each adjacent pair from
the end of the list downward, swapping when `compare` returns `Greater`. -/
def bubbleMin (cmp : α → α → Ordering) : List α → List α
  | [] => []
  | [x] => [x]
  | x :: y :: l =>
    match bubbleMin cmp (y :: l) with
    | [] => [x]
    | z :: l' => if cmp x z = .gt then z :: x :: l' else x :: z :: l'

/-- `<[T]>::partial_sort_by(num_sorted, compare)`: run the bubbling pass
once per target position; position `i`'s pass acts on the suffix from `i`. -/
def partialSortBy (cmp : α → α → Ordering) : ℕ → List α → List α
  | 0, l => l
  | k + 1, l =>
    match bubbleMin cmp l with
    | [] => l
    | y :: ys => y :: partialSortBy cmp k ys

/-- The comparison induced by a linear order; models `Ord::cmp` on `usize`
and `f64::total_cmp` (whose `NaN`/`-0.0` cases have no counterpart in the
`ℚ` model of `f64`). -/
def lcmp [LinearOrder α] (a b : α) : Ordering :=
  if a < b then .lt else if b < a then .gt else .eq

/-! ## Data model (`lib.rs`, `classify/mod.rs`) -/

/-- `DataPoint<T>` from `lib.rs`: a point vector plus its classification. -/
structure DataPoint (T : Type) where
  point : Point
  class' : T
deriving DecidableEq, Repr

/-- `Classification<'a, T>` from `classify/mod.rs`; the borrowed test point
is modelled by storing the `DataPoint` value itself. -/
structure Classification (T : Type) where
  data : DataPoint T
  class_guess : T
deriving DecidableEq, Repr

/-- Rust `Iterator::max_by`: fold keeping the maximum, preferring the
*later* element when the comparison is not `Greater` (ties return the last
maximal element). -/
def maxBy (cmp : α → α → Ordering) (l : List α) : Option α :=
  l.foldl
    (fun acc x =>
      match acc with
      | none => some x
      | some m => if cmp m x = .gt then some m else some x)
    none

/-! ## Bayes plug-in classifier (`classify/bayes.rs`) -/

/-- One step of the `BTreeMap<&T, Vec<&Point>>` grouping loop (lines
29-36): push onto an existing key's vector, or insert a new key.  The
association list is kept sorted by key, which is the `BTreeMap` ordering
(its iteration order is ascending by key). -/
def insGrp [LinearOrder T] : List (T × List Point) → T → Point → List (T × List Point)
  | [], c, p => [(c, [p])]
  | (k, v) :: rest, c, p =>
    if c = k then (k, v ++ [p]) :: rest
    else if c < k then (c, [p]) :: (k, v) :: rest
    else (k, v) :: insGrp rest c p

/-- The fully built `BTreeMap` of `bayes_plug_in` (lines 29-36), iterated
in ascending key order. -/
def bayesGroups [LinearOrder T] (train : List (DataPoint T)) : List (T × List Point) :=
  train.foldl (fun m d => insGrp m d.class' d.point) []

/-- Plug-in weights of `bayes_plug_in` (lines 38-64): for each group, the
mean is the sum scaled by `1/cnt`; `w = conjugate(mean).scale(2)` and
`w₀ = mean ⬝ conjugate(mean)`. -/
def bayesWeights [LinearOrder T] (train : List (DataPoint T)) : List (T × Point × CComplex) :=
  (bayesGroups train).map (fun g =>
    let cnt : ℚ := (g.2.length : ℚ)
    let mean := pscale (psum g.2) cnt⁻¹
    let meanConj := conjP mean
    (g.1, pscale meanConj 2, pdot mean meanConj))

/-- The per-test-point decision of `bayes_plug_in` (lines 69-79): score
every class by `w ⬝ x − w₀`, take the class of maximal real part
(`max_by` on `re` with `total_cmp`), defaulting when there are no classes. -/
def bayesGuess [LinearOrder T] [Inhabited T] (train : List (DataPoint T)) (x : Point) : T :=
  let results := (bayesWeights train).map (fun w => (w.1, csub (pdot w.2.1 x) w.2.2))
  (maxBy (fun a b => lcmp a.2.re b.2.re) results).elim default (fun r => r.1)

/-- `bayes_plug_in` (lines 13-82): classify every test point. -/
def bayes_plug_in [LinearOrder T] [Inhabited T]
    (train test : List (DataPoint T)) : List (Classification T) :=
  test.map (fun d => ⟨d, bayesGuess train d.point⟩)

/-! ## k-nearest-neighbor classifier (`classify/knn.rs`) -/

/-- The `HashMap<&T, usize>` vote tally of `k_nearest_neighbor` (lines
52-59), modelled by its contents in key-encounter order: bump an existing
key's count or append a new key with count 1. -/
def bump [DecidableEq T] : List (T × ℕ) → T → List (T × ℕ)
  | [], c => [(c, 1)]
  | (k, v) :: rest, c => if c = k then (k, v + 1) :: rest else (k, v) :: bump rest c

/-- The vote counts over a list of neighbor classes (lines 53-59). -/
def tally [DecidableEq T] (classes : List T) : List (T × ℕ) :=
  classes.foldl bump []

/-- The distance list, selection, and tally for one test point (lines
38-59): distance of every training point to the test point, partial sort
by `total_cmp` on distance, keep the first `num_neighbors`, tally their
classes.  `sq`/`hyp` model `f64::sqrt`/`f64::hypot`. -/
def knnVotes [DecidableEq T] (sq : ℚ → ℚ) (hyp : ℚ → ℚ → ℚ)
    (train : List (DataPoint T)) (x : Point) (k : ℕ) : List (T × ℕ) :=
  let dists := train.map (fun d => (d, pmag sq hyp (psub d.point x)))
  let sorted := partialSortBy (fun a b => lcmp a.2 b.2) k dists
  tally ((sorted.take k).map (fun d => d.1.class'))

/-- `k_nearest_neighbor` (lines 13-70).  `vend` models the unspecified
iteration order of the vote `HashMap` (a permutation of its contents);
`none` models the `assert!(train_data.len() >= num_neighbors)` panic. -/
def k_nearest_neighbor [DecidableEq T] [Inhabited T]
    (sq : ℚ → ℚ) (hyp : ℚ → ℚ → ℚ) (vend : List (T × ℕ) → List (T × ℕ))
    (train test : List (DataPoint T)) (k : ℕ) : Option (List (Classification T)) :=
  if train.length < k then none
  else some (test.map (fun data =>
    let votes := vend (knnVotes sq hyp train data.point k)
    let guess := (maxBy (fun a b => lcmp a.2 b.2) votes).elim default (fun v => v.1)
    ⟨data, guess⟩))

/-! ## Single-layer perceptron (`classify/perceptron.rs`)

This module manipulates point components as plain `f64` values (it inserts
the literal `1.0`, takes `signum`, and compares dot products with `0.0`),
so its vectors are embedded with real (`ℚ`) components, using the same
`lin_alg.rs` algorithms specialised to real scalars. -/

/-- A real-component point vector, as used by the perceptron module. -/
abbrev RPoint := List ℚ

/-- `impl Add for Point` specialised to real components (longer buffer
wins, shorter operand zero-padded); used through `Point::sum`. -/
def radd (a b : RPoint) : RPoint :=
  if b.length ≤ a.length then List.zipWith (· + ·) a b ++ a.drop b.length
  else List.zipWith (· + ·) b a ++ b.drop a.length

/-- `impl AddAssign<&Point> for Point` (lines 176-185), real components:
add into `self`'s prefix, then extend with `rhs`'s extra dimensions; this
is the `weights += weight_adjustment` update. -/
def raddA (a b : RPoint) : RPoint :=
  List.zipWith (· + ·) a b ++ b.drop a.length

/-- `impl Sub for &Point` (lines 218-239), real components: used for the
centroid offset `&d.point - &train_mean`. -/
def rsub (a b : RPoint) : RPoint :=
  if b.length ≤ a.length then List.zipWith (· - ·) a b ++ a.drop b.length
  else (List.zipWith (· - ·) b a ++ b.drop a.length).map (fun x => x * (-1))

/-- `impl SubAssign<&Point> for Point` (lines 278-287), real components:
the `weights.w -= &weight_adjustment` update of the multiclass variant. -/
def rsubA (a b : RPoint) : RPoint :=
  List.zipWith (· - ·) a b ++ (b.drop a.length).map (fun x => -x)

/-- `Point::scale`, real components. -/
def rscale (p : RPoint) (s : ℚ) : RPoint := p.map (fun x => x * s)

/-- `Point::dot`, real components. -/
def rdot (a b : RPoint) : ℚ := (List.zipWith (· * ·) a b).foldl (· + ·) 0

/-- `impl Sum for Point`, real components. -/
def rsum (l : List RPoint) : RPoint := l.foldl radd []

/-- `f64::signum` on the `ℚ` model: `1` for non-negative values (`f64`
returns `1.0` for `+0.0`; `-0.0` and `NaN` are unrepresentable), else `-1`. -/
def signumQ (q : ℚ) : ℚ := if q < 0 then -1 else 1

/-- A real data point of the perceptron module. -/
structure RData (T : Type) where
  point : RPoint
  class' : T
deriving DecidableEq, Repr

/-- Perceptron classification result (real-point variant). -/
structure RClassification (T : Type) where
  data : RData T
  class_guess : T
deriving DecidableEq, Repr

/-- `generate_random_weights(size)`: a point of `size` draws from the
process-wide generator, modelled as a stream `rng` of values. -/
def genWeights (rng : ℕ → ℚ) (size : ℕ) : RPoint :=
  (List.range size).map rng

/-- The augmented training set `y` (lines 57-69): offset each training
point by the mean, then prepend the constant `1.0`. -/
def slpY (train : List (RData T)) (mean : RPoint) : List (RData T) :=
  train.map (fun d => ⟨1 :: rsub d.point mean, d.class'⟩)

/-- One training pass of `single_layer_perceptron` (lines 77-100): for
each point in order, compare the sign of `weights ⬝ point` with the point's
binary class; on error, bump the misclassification count and add
`point.scale(error).scale(learning_rate)` to the weights.  Returns the
updated weights and the pass's misclassification count. -/
def slpPass [DecidableEq T] (pos : T) (lr : ℚ) (w₀ : RPoint) (y : List (RData T)) :
    RPoint × ℕ :=
  y.foldl
    (fun s d =>
      let linClassValue := rdot s.1 d.point
      let classGuessValue := signumQ linClassValue
      let classValue : ℚ := if d.class' = pos then 1 else -1
      let error := classValue - classGuessValue
      if error ≠ 0 then (raddA s.1 (rscale (rscale d.point error) lr), s.2 + 1)
      else s)
    (w₀, 0)

/-- The training loop of `single_layer_perceptron` (lines 73-106): at most
`fuel` (called with 10,000) passes; each pass first shuffles the working
set (`shuf pass` models `fastrand::shuffle` at that pass), runs `slpPass`,
and breaks once `misclassified < threshold * n`.  Returns the final
weights, working set, number of passes executed, and the last pass's
misclassification count. -/
def slpLoop [DecidableEq T] (shuf : ℕ → List (RData T) → List (RData T))
    (pos : T) (lr thr : ℚ) (n : ℕ) :
    ℕ → RPoint → List (RData T) → ℕ → ℕ → RPoint × List (RData T) × ℕ × ℕ
  | 0, w, y, passes, lastMis => (w, y, passes, lastMis)
  | fuel + 1, w, y, passes, _ =>
    let y' := shuf passes y
    let p := slpPass pos lr w y'
    if (p.2 : ℚ) < thr * (n : ℚ) then (p.1, y', passes + 1, p.2)
    else slpLoop shuf pos lr thr n fuel p.1 y' (passes + 1) p.2

/-- `single_layer_perceptron` (lines 28-127).  `rng` models the initial
weight draws, `shuf` the per-pass shuffles; `none` models the panics on an
empty training set (`train_data[0]`) and on single-class data (`expect`). -/
def single_layer_perceptron [DecidableEq T] (rng : ℕ → ℚ)
    (shuf : ℕ → List (RData T) → List (RData T))
    (train test : List (RData T)) (lr thr : ℚ) : Option (List (RClassification T)) :=
  match train with
  | [] => none
  | d0 :: _ =>
    let w₀ := genWeights rng (d0.point.length + 1)
    let pos := d0.class'
    match (train.map (fun d => d.class')).find? (fun c => c ≠ pos) with
    | none => none
    | some neg =>
      let mean := rscale (rsum (train.map (fun d => d.point))) ((train.length : ℚ))⁻¹
      let y := slpY train mean
      let res := slpLoop shuf pos lr thr train.length 10000 w₀ y 0 0
      some (test.map (fun data =>
        let point := 1 :: rsub data.point mean
        let classResult := rdot res.1 point
        ⟨data, if 0 < classResult then pos else neg⟩))

/-! ## Multiclass single-layer perceptron (`perceptron.rs`, lines 135-253) -/

/-- The `HashSet` of training classes (lines 153-156) in encounter order;
`σc` reorders it to model the set's unspecified iteration order. -/
def mcClasses [DecidableEq T] (σc : List T → List T) (train : List (RData T)) : List T :=
  σc ((train.map (fun d => d.class')).dedup)

/-- The initial `weights_vec` (lines 151-166): one weight vector per
class, each sized `test_data[0].point.0.len() + 1` — the *test* set's
first point.  `none` models the `test_data[0]` panic when the class set is
non-empty but the test set is empty; with no classes the sizing closure is
never evaluated. -/
def mcInitWeights [DecidableEq T] (σc : List T → List T) (rng : ℕ → ℕ → ℚ)
    (train test : List (RData T)) : Option (List (T × RPoint)) :=
  match mcClasses σc train with
  | [] => some []
  | classes =>
    match test with
    | [] => none
    | t0 :: _ =>
      some (classes.enum.map (fun ci => (ci.2, genWeights (rng ci.1) (t0.point.length + 1))))

/-- The arg-max class of the multiclass inference (`max_by` with
`total_cmp` over per-class dot products, lines 201-208 and 243-247). -/
def mcGuess [DecidableEq T] (ws : List (T × RPoint)) (p : RPoint) : Option T :=
  (maxBy (fun a b => lcmp a.2 b.2) (ws.map (fun w => (w.1, rdot w.2 p)))).map (fun r => r.1)

/-- One training pass of the multiclass perceptron (lines 196-226): for
each point, take the arg-max class; if wrong, add `point.scale(lr)` to the
true class's weights and subtract it from every other class's weights.
The `unwrap` on an empty weight list cannot fire (a non-empty working set
implies a non-empty class set); that unreachable branch leaves the state
unchanged. -/
def mcPass [DecidableEq T] (lr : ℚ) (ws₀ : List (T × RPoint)) (y : List (RData T)) :
    List (T × RPoint) × ℕ :=
  y.foldl
    (fun s d =>
      match mcGuess s.1 d.point with
      | none => s
      | some guess =>
        if guess ≠ d.class' then
          let adj := rscale d.point lr
          (s.1.map (fun w =>
            if w.1 = d.class' then (w.1, raddA w.2 adj) else (w.1, rsubA w.2 adj)),
           s.2 + 1)
        else s)
    (ws₀, 0)

/-- The multiclass training loop (lines 192-232), same shape as `slpLoop`. -/
def mcLoop [DecidableEq T] (shuf : ℕ → List (RData T) → List (RData T))
    (lr thr : ℚ) (n : ℕ) :
    ℕ → List (T × RPoint) → List (RData T) → ℕ → ℕ →
      List (T × RPoint) × List (RData T) × ℕ × ℕ
  | 0, ws, y, passes, lastMis => (ws, y, passes, lastMis)
  | fuel + 1, ws, y, passes, _ =>
    let y' := shuf passes y
    let p := mcPass lr ws y'
    if (p.2 : ℚ) < thr * (n : ℚ) then (p.1, y', passes + 1, p.2)
    else mcLoop shuf lr thr n fuel p.1 y' (passes + 1) p.2

/-- `multiclass_single_layer_perceptron` (lines 135-253). -/
def multiclass_single_layer_perceptron [DecidableEq T] [Inhabited T]
    (σc : List T → List T) (rng : ℕ → ℕ → ℚ)
    (shuf : ℕ → List (RData T) → List (RData T))
    (train test : List (RData T)) (lr thr : ℚ) : Option (List (RClassification T)) :=
  match mcInitWeights σc rng train test with
  | none => none
  | some ws₀ =>
    let mean := rscale (rsum (train.map (fun d => d.point))) ((train.length : ℚ))⁻¹
    let y := slpY train mean
    let res := mcLoop shuf lr thr train.length 10000 ws₀ y 0 0
    some (test.map (fun data =>
      let point := 1 :: rsub data.point mean
      let guess := (mcGuess res.1 point).getD default
      ⟨data, guess⟩))

/-! ## Spec-side definitions for the Bayes plug-in refinement (claim C2)

These follow the spec's words ("partition training points by label",
"centroid `μ` as the mean of that label's vectors", "`w = 2·conjugate(μ)`",
"`w₀ = μ·conjugate(μ)`", "`score = w·x − w₀`") rather than the code's
`BTreeMap` pipeline; the refinement theorem compares the two. -/

/-- Spec: the centroid of a label, the mean of that label's vectors. -/
def specCentroid [DecidableEq T] (train : List (DataPoint T)) (c : T) : Point :=
  let pts := (train.filter (fun d => d.class' = c)).map (fun d => d.point)
  pscale (psum pts) ((pts.length : ℚ))⁻¹

/-- Spec: the linear weight `w = 2·conjugate(μ)`. -/
def specW [DecidableEq T] (train : List (DataPoint T)) (c : T) : Point :=
  pscale (conjP (specCentroid train c)) 2

/-- Spec: the bias `w₀ = μ·conjugate(μ)`. -/
def specW0 [DecidableEq T] (train : List (DataPoint T)) (c : T) : CComplex :=
  pdot (specCentroid train c) (conjP (specCentroid train c))

/-- Spec: the per-label score `w·x − w₀`. -/
def specScore [DecidableEq T] (train : List (DataPoint T)) (c : T) (x : Point) : CComplex :=
  csub (pdot (specW train c) x) (specW0 train c)

/-! ## Helper lemmas: `lcmp` and `maxBy` -/

theorem lcmp_eq_gt [LinearOrder K] {a b : K} : lcmp a b = .gt ↔ b < a := by
  unfold lcmp
  split_ifs with h1 h2 <;> simp_all [lt_asymm]

theorem lcmp_ne_gt [LinearOrder K] {a b : K} : lcmp a b ≠ .gt ↔ a ≤ b := by
  rw [not_iff_comm, lcmp_eq_gt, not_le]

/-- Fold invariant behind `maxBy`: starting from `some a`, the fold result
is some element of `{a} ∪ l` whose key bounds `a`'s key and every key in
`l`. -/
theorem maxBy_go [LinearOrder K] (key : α → K) (l : List α) :
    ∀ a : α,
      ∃ m, List.foldl
          (fun acc x =>
            match acc with
            | none => some x
            | some mm => if lcmp (key mm) (key x) = .gt then some mm else some x)
          (some a) l = some m ∧
        (m = a ∨ m ∈ l) ∧ key a ≤ key m ∧ ∀ x ∈ l, key x ≤ key m := by
  induction l with
  | nil => exact fun a => ⟨a, rfl, Or.inl rfl, le_refl _, by simp⟩
  | cons x xs ih =>
    intro a
    simp only [List.foldl_cons]
    by_cases h : lcmp (key a) (key x) = .gt
    · obtain ⟨m, hm, hmem, hle, hall⟩ := ih a
      rw [if_pos h]
      refine ⟨m, hm, ?_, hle, ?_⟩
      · rcases hmem with h' | h'
        · exact Or.inl h'
        · exact Or.inr (List.mem_cons_of_mem _ h')
      · intro z hz
        rcases List.mem_cons.mp hz with h' | h'
        · exact h' ▸ le_trans (le_of_lt (lcmp_eq_gt.mp h)) hle
        · exact hall z h'
    · obtain ⟨m, hm, hmem, hle, hall⟩ := ih x
      rw [if_neg h]
      refine ⟨m, hm, ?_, le_trans (lcmp_ne_gt.mp h) hle, ?_⟩
      · rcases hmem with h' | h'
        · exact Or.inr (h' ▸ List.mem_cons_self x xs)
        · exact Or.inr (List.mem_cons_of_mem _ h')
      · intro z hz
        rcases List.mem_cons.mp hz with h' | h'
        · exact h' ▸ hle
        · exact hall z h'

/-- `max_by` on a non-empty list returns an element whose key is maximal. -/
theorem maxBy_spec [LinearOrder K] (key : α → K) (l : List α) (hl : l ≠ []) :
    ∃ m, maxBy (fun a b => lcmp (key a) (key b)) l = some m ∧
      m ∈ l ∧ ∀ x ∈ l, key x ≤ key m := by
  match l, hl with
  | x :: xs, _ =>
    obtain ⟨m, hm, hmem, hxle, hall⟩ := maxBy_go key xs x
    refine ⟨m, ?_, ?_, ?_⟩
    · simpa [maxBy] using hm
    · rcases hmem with h' | h'
      · exact h' ▸ List.mem_cons_self x xs
      · exact List.mem_cons_of_mem _ h'
    · intro z hz
      rcases List.mem_cons.mp hz with h' | h'
      · exact h' ▸ hxle
      · exact hall z h'

/-! ## Helper lemmas: component access and scalar algebra -/

/-- Component `i` of a point, zero when past the end: the zero-padding
view of `lin_alg.rs`'s binary operations. -/
def atD (p : Point) (i : ℕ) : CComplex := p.getD i czero

theorem cadd_comm (x y : CComplex) : cadd x y = cadd y x := by
  cases x; cases y; simp [cadd]; constructor <;> ring

theorem csub_cadd (x y : CComplex) : csub (cadd x y) y = x := by
  cases x; cases y; simp [csub, cadd]

theorem cadd_czero (x : CComplex) : cadd x czero = x := by
  cases x; simp [cadd, czero]

theorem czero_cadd (x : CComplex) : cadd czero x = x := by
  cases x; simp [cadd, czero]

theorem csub_czero (x : CComplex) : csub x czero = x := by
  cases x; simp [csub, czero]

theorem csub_self (x : CComplex) : csub x x = czero := by
  cases x; simp [csub, czero]

theorem padd_length (a b : Point) : (padd a b).length = max a.length b.length := by
  unfold padd; split_ifs with h <;> simp <;> omega

theorem psub_length (a b : Point) : (psub a b).length = max a.length b.length := by
  unfold psub pneg pscale; split_ifs with h <;> simp <;> omega

theorem atD_eq_getElem (p : Point) (i : ℕ) (h : i < p.length) : atD p i = p[i] := by
  simp [atD, List.getD_eq_getElem?_getD, List.getElem?_eq_getElem h]

theorem atD_eq_czero (p : Point) (i : ℕ) (h : p.length ≤ i) : atD p i = czero := by
  simp [atD, List.getD_eq_getElem?_getD, List.getElem?_eq_none h]

/-- Zero-padding semantics of `Point` addition: componentwise `cadd` with
the shorter operand read as zero past its end. -/
theorem atD_padd (a b : Point) (i : ℕ) : atD (padd a b) i = cadd (atD a i) (atD b i) := by
  by_cases hi : i < (padd a b).length
  · rw [atD_eq_getElem _ _ hi]
    rw [padd_length] at hi
    unfold padd
    by_cases hab : b.length ≤ a.length
    · simp only [if_pos hab]
      by_cases hib : i < b.length
      · rw [List.getElem_append_left (by simp; omega)]
        rw [List.getElem_zipWith, atD_eq_getElem _ _ (by omega), atD_eq_getElem _ _ hib]
      · rw [List.getElem_append_right (by simp; omega)]
        simp only [List.length_zipWith]
        rw [List.getElem_drop,
          getElem_congr (show b.length + (i - min a.length b.length) = i by omega),
          atD_eq_getElem _ _ (by omega), atD_eq_czero _ _ (by omega), cadd_czero]
    · simp only [if_neg hab]
      by_cases hia : i < a.length
      · rw [List.getElem_append_left (by simp; omega)]
        rw [List.getElem_zipWith, atD_eq_getElem _ _ hia, atD_eq_getElem _ _ (by omega),
          cadd_comm]
      · rw [List.getElem_append_right (by simp; omega)]
        simp only [List.length_zipWith]
        rw [List.getElem_drop,
          getElem_congr (show a.length + (i - min b.length a.length) = i by omega),
          atD_eq_czero _ _ (by omega), atD_eq_getElem _ _ (by omega), czero_cadd]
  · rw [atD_eq_czero _ _ (by omega)]
    rw [padd_length] at hi
    rw [atD_eq_czero _ _ (by omega), atD_eq_czero _ _ (by omega)]
    rw [cadd_czero]

/-- Zero-padding semantics of `Point` subtraction. -/
theorem atD_psub (a b : Point) (i : ℕ) : atD (psub a b) i = csub (atD a i) (atD b i) := by
  by_cases hi : i < (psub a b).length
  · rw [atD_eq_getElem _ _ hi]
    rw [psub_length] at hi
    unfold psub
    by_cases hab : b.length ≤ a.length
    · simp only [if_pos hab]
      by_cases hib : i < b.length
      · rw [List.getElem_append_left (by simp; omega)]
        rw [List.getElem_zipWith, atD_eq_getElem _ _ (by omega), atD_eq_getElem _ _ hib]
      · rw [List.getElem_append_right (by simp; omega)]
        simp only [List.length_zipWith]
        rw [List.getElem_drop,
          getElem_congr (show b.length + (i - min a.length b.length) = i by omega),
          atD_eq_getElem _ _ (by omega), atD_eq_czero _ _ (by omega), csub_czero]
    · simp only [if_neg hab]
      unfold pneg pscale
      rw [List.getElem_map]
      by_cases hia : i < a.length
      · rw [List.getElem_append_left (by simp; omega)]
        rw [List.getElem_zipWith, atD_eq_getElem _ _ hia, atD_eq_getElem _ _ (by omega)]
        simp [cscale, csub]
      · rw [List.getElem_append_right (by simp; omega)]
        simp only [List.length_zipWith]
        rw [List.getElem_drop,
          getElem_congr (show a.length + (i - min b.length a.length) = i by omega),
          atD_eq_czero _ _ (by omega), atD_eq_getElem _ _ (by omega)]
        simp [cscale, csub, czero]
  · rw [atD_eq_czero _ _ (by omega)]
    rw [psub_length] at hi
    rw [atD_eq_czero _ _ (by omega), atD_eq_czero _ _ (by omega), csub_self]

theorem cadd_assoc (x y z : CComplex) : cadd (cadd x y) z = cadd x (cadd y z) := by
  cases x; cases y; cases z; simp [cadd]; constructor <;> ring

theorem cadd_cadd_swap (p q r s : CComplex) :
    cadd (cadd p q) (cadd r s) = cadd (cadd p r) (cadd q s) := by
  cases p; cases q; cases r; cases s; simp [cadd]; constructor <;> ring

theorem cmul_cadd_left (x y z : CComplex) :
    cmul (cadd x y) z = cadd (cmul x z) (cmul y z) := by
  cases x; cases y; cases z; simp [cmul, cadd]; constructor <;> ring

theorem foldl_cadd (l : List CComplex) : ∀ z, l.foldl cadd z = cadd z (csum l) := by
  induction l with
  | nil => intro z; simp [csum, cadd_czero]
  | cons x l ih =>
    intro z
    rw [List.foldl_cons, ih (cadd z x)]
    show cadd (cadd z x) (csum l) = cadd z (csum (x :: l))
    rw [show csum (x :: l) = cadd (cadd czero x) (csum l) from ih (cadd czero x),
      czero_cadd, cadd_assoc]

theorem csum_cons (x : CComplex) (l : List CComplex) : csum (x :: l) = cadd x (csum l) := by
  show (x :: l).foldl cadd czero = cadd x (csum l)
  rw [List.foldl_cons, foldl_cadd, czero_cadd]

theorem padd_comm (a b : Point) : padd a b = padd b a := by
  apply List.ext_getElem
  · rw [padd_length, padd_length]; omega
  · intro i h1 h2
    rw [← atD_eq_getElem _ _ h1, ← atD_eq_getElem _ _ h2, atD_padd, atD_padd, cadd_comm]

theorem padd_eq_zipWith (a b : Point) (h : a.length = b.length) :
    padd a b = List.zipWith cadd a b := by
  unfold padd
  rw [if_pos (le_of_eq h.symm), ← h, List.drop_length, List.append_nil]

theorem pdot_padd_left (a b c : Point) (h : a.length = b.length) :
    pdot (padd a b) c = cadd (pdot a c) (pdot b c) := by
  rw [padd_eq_zipWith a b h]
  unfold pdot
  induction a generalizing b c with
  | nil =>
    have hb : b = [] := List.length_eq_zero.mp h.symm
    subst hb
    simp [csum, czero_cadd]
  | cons x a ih =>
    match b, c with
    | [], _ => simp at h
    | y :: b, [] => simp [csum, czero_cadd]
    | y :: b, z :: c =>
      simp only [List.zipWith_cons_cons]
      rw [csum_cons, csum_cons, csum_cons, ih b c (by simpa using h), cmul_cadd_left,
        cadd_cadd_swap]

/-- C7: for all vectors `a` and `b` of possibly different dimensions,
`a + b = b + a`; the dimension of `a + b` is `max(dim a, dim b)` and the
shorter operand is treated as zero-padded on its higher-index dimensions
(componentwise characterization via `atD`); and `(a + b) - b` equals `a`
zero-padded to `max(dim a, dim b)`. -/
theorem claim_C7_point_add_comm_pad (a b : Point) :
    padd a b = padd b a ∧
    (padd a b).length = max a.length b.length ∧
    (∀ i, atD (padd a b) i = cadd (atD a i) (atD b i)) ∧
    psub (padd a b) b = a ++ List.replicate (max a.length b.length - a.length) czero := by
  refine ⟨padd_comm a b, padd_length a b, fun i => atD_padd a b i, ?_⟩
  apply List.ext_getElem
  · rw [psub_length, padd_length, List.length_append, List.length_replicate]; omega
  · intro i h1 h2
    rw [← atD_eq_getElem _ _ h1, atD_psub, atD_padd, csub_cadd]
    by_cases hia : i < a.length
    · rw [atD_eq_getElem _ _ hia, List.getElem_append_left hia]
    · rw [atD_eq_czero _ _ (by omega), List.getElem_append_right (by omega)]
      simp

/-- C8: the dot product is bilinear; for vectors `a`, `b`, `c` of the same
dimension, `(a + b) · c = a · c + b · c`. -/
theorem claim_C8_dot_bilinear (a b c : Point) (hab : a.length = b.length)
    (_hbc : b.length = c.length) : pdot (padd a b) c = cadd (pdot a c) (pdot b c) :=
  pdot_padd_left a b c hab

/-- Witness for C8 at concrete one-dimensional complex vectors. -/
theorem claim_C8_witness :
    ([⟨1, 2⟩] : Point).length = ([⟨3, 4⟩] : Point).length ∧
    ([⟨3, 4⟩] : Point).length = ([⟨5, 6⟩] : Point).length ∧
    pdot (padd [⟨1, 2⟩] [⟨3, 4⟩]) [⟨5, 6⟩] =
      cadd (pdot [⟨1, 2⟩] [⟨5, 6⟩]) (pdot [⟨3, 4⟩] [⟨5, 6⟩]) :=
  ⟨rfl, rfl, claim_C8_dot_bilinear [⟨1, 2⟩] [⟨3, 4⟩] [⟨5, 6⟩] rfl rfl⟩

/-! ## Helper lemmas: the selection primitive -/

theorem bubbleMin_perm (cmp : α → α → Ordering) (l : List α) :
    (bubbleMin cmp l).Perm l := by
  induction l with
  | nil => simp [bubbleMin]
  | cons x xs ih =>
    cases xs with
    | nil => simp [bubbleMin]
    | cons y l =>
      simp only [bubbleMin]
      rcases hbm : bubbleMin cmp (y :: l) with _ | ⟨z, l'⟩
      · rw [hbm] at ih
        exact absurd (List.Perm.eq_nil ih.symm) (by simp)
      · rw [hbm] at ih
        show (if cmp x z = Ordering.gt then z :: x :: l' else x :: z :: l').Perm (x :: y :: l)
        split_ifs with hgt
        · exact (List.Perm.swap x z l').trans (ih.cons x)
        · exact ih.cons x

theorem bubbleMin_head_le (cmp : α → α → Ordering)
    (hasym : ∀ a b, cmp a b = .gt → cmp b a ≠ .gt)
    (htrans : ∀ a b c, cmp a b ≠ .gt → cmp b c ≠ .gt → cmp a c ≠ .gt) :
    ∀ (l : List α) (y : α) (ys : List α), bubbleMin cmp l = y :: ys →
      ∀ z ∈ l, cmp y z ≠ .gt := by
  have hself : ∀ a, cmp a a ≠ .gt := fun a h => hasym a a h h
  intro l
  induction l with
  | nil => intro y ys h; simp [bubbleMin] at h
  | cons x xs ih =>
    cases xs with
    | nil =>
      intro y ys h z hz
      simp [bubbleMin] at h
      rcases List.mem_singleton.mp hz with rfl
      rw [← h.1]
      exact hself z
    | cons y' l =>
      intro y ys h z hz
      simp only [bubbleMin] at h
      rcases hbm : bubbleMin cmp (y' :: l) with _ | ⟨w, l'⟩
      · have := bubbleMin_perm cmp (y' :: l)
        rw [hbm] at this
        exact absurd (List.Perm.eq_nil this.symm) (by simp)
      · rw [hbm] at h
        have ihw : ∀ u ∈ y' :: l, cmp w u ≠ .gt := ih w l' hbm
        have h' : (if cmp x w = Ordering.gt then w :: x :: l' else x :: w :: l') = y :: ys := h
        split_ifs at h' with hgt
        · injection h' with hy hys
          rw [← hy]
          rcases List.mem_cons.mp hz with rfl | hz'
          · exact hasym z w hgt
          · exact ihw z hz'
        · injection h' with hy hys
          rw [← hy]
          rcases List.mem_cons.mp hz with rfl | hz'
          · exact hself _
          · exact htrans x w z hgt (ihw z hz')

theorem partialSortBy_spec (cmp : α → α → Ordering)
    (hasym : ∀ a b, cmp a b = .gt → cmp b a ≠ .gt)
    (htrans : ∀ a b c, cmp a b ≠ .gt → cmp b c ≠ .gt → cmp a c ≠ .gt) :
    ∀ (k : ℕ) (l : List α),
      (partialSortBy cmp k l).Perm l ∧
      List.Pairwise (fun a b => cmp a b ≠ .gt) ((partialSortBy cmp k l).take k) ∧
      ∀ x ∈ (partialSortBy cmp k l).take k, ∀ y ∈ (partialSortBy cmp k l).drop k,
        cmp x y ≠ .gt := by
  intro k
  induction k with
  | zero =>
    intro l
    refine ⟨List.Perm.refl l, ?_, ?_⟩ <;> simp [partialSortBy]
  | succ k ih =>
    intro l
    rcases hbm : bubbleMin cmp l with _ | ⟨y, ys⟩
    · have hl : l = [] := by
        have := bubbleMin_perm cmp l
        rw [hbm] at this
        exact (List.Perm.eq_nil this.symm)
      subst hl
      simp only [partialSortBy, hbm]
      exact ⟨List.Perm.refl _, by simp, by simp⟩
    · have hperm : (y :: ys).Perm l := hbm ▸ bubbleMin_perm cmp l
      have hmin : ∀ z ∈ l, cmp y z ≠ .gt := bubbleMin_head_le cmp hasym htrans l y ys hbm
      obtain ⟨ihp, ihs, ihb⟩ := ih ys
      have hmemr : ∀ z ∈ partialSortBy cmp k ys, z ∈ l :=
        fun z hz => hperm.mem_iff.mp (List.mem_cons_of_mem _ (ihp.mem_iff.mp hz))
      have hres : partialSortBy cmp (k + 1) l = y :: partialSortBy cmp k ys := by
        simp only [partialSortBy, hbm]
      rw [hres]
      refine ⟨(ihp.cons y).trans hperm, ?_, ?_⟩
      · rw [List.take_succ_cons]
        refine List.pairwise_cons.mpr ⟨?_, ihs⟩
        intro z hz
        exact hmin z (hmemr z (List.mem_of_mem_take hz))
      · rw [List.take_succ_cons, List.drop_succ_cons]
        intro x hx w hw
        rcases List.mem_cons.mp hx with rfl | hx'
        · exact hmin w (hmemr w (List.mem_of_mem_drop hw))
        · exact ihb x hx' w hw

/-- C1: for every slice, every comparison that is a strict total order
(here: any comparison satisfying the asymmetry and transitivity laws such
an order implies), and every `k ≤ n`: after `partial_sort_by(k, compare)`
the slice is a permutation of the original, indices `[0, k)` are in
ascending order and are below every element at `[k, n)` (hence hold the
`k` smallest elements of the original), and `k = 0` leaves the slice
unchanged. -/
theorem claim_C1_partial_sort (cmp : α → α → Ordering) (k : ℕ) (l : List α)
    (hasym : ∀ a b, cmp a b = .gt → cmp b a ≠ .gt)
    (htrans : ∀ a b c, cmp a b ≠ .gt → cmp b c ≠ .gt → cmp a c ≠ .gt)
    (_hk : k ≤ l.length) :
    (partialSortBy cmp k l).Perm l ∧
    List.Pairwise (fun a b => cmp a b ≠ .gt) ((partialSortBy cmp k l).take k) ∧
    (∀ x ∈ (partialSortBy cmp k l).take k, ∀ y ∈ (partialSortBy cmp k l).drop k,
      cmp x y ≠ .gt) ∧
    partialSortBy cmp 0 l = l := by
  obtain ⟨h1, h2, h3⟩ := partialSortBy_spec cmp hasym htrans k l
  exact ⟨h1, h2, h3, rfl⟩

/-- Witness for C1: the `sort.rs` unit-test vector `[1, 5, 4, 7, 3]` with
`k = 3` under the order comparison on `Fin 8`. -/
theorem claim_C1_witness :
    (∀ a b : Fin 8, lcmp a b = .gt → lcmp b a ≠ .gt) ∧
    (∀ a b c : Fin 8, lcmp a b ≠ .gt → lcmp b c ≠ .gt → lcmp a c ≠ .gt) ∧
    (3 ≤ ([1, 5, 4, 7, 3] : List (Fin 8)).length) ∧
    ((partialSortBy lcmp 3 [1, 5, 4, 7, 3]).Perm ([1, 5, 4, 7, 3] : List (Fin 8)) ∧
      List.Pairwise (fun a b => lcmp a b ≠ .gt)
        ((partialSortBy lcmp 3 ([1, 5, 4, 7, 3] : List (Fin 8))).take 3) ∧
      (∀ x ∈ (partialSortBy lcmp 3 ([1, 5, 4, 7, 3] : List (Fin 8))).take 3,
        ∀ y ∈ (partialSortBy lcmp 3 ([1, 5, 4, 7, 3] : List (Fin 8))).drop 3,
          lcmp x y ≠ .gt) ∧
      partialSortBy lcmp 0 ([1, 5, 4, 7, 3] : List (Fin 8)) = [1, 5, 4, 7, 3]) :=
  ⟨by decide, by decide, by decide,
    claim_C1_partial_sort lcmp 3 [1, 5, 4, 7, 3] (by decide) (by decide) (by decide)⟩

/-- C3: `k_nearest_neighbor` panics (returns `none`) exactly when the
training set has fewer points than the requested neighbor count, and
completes (returns `some`) whenever `train.length ≥ k`. -/
theorem claim_C3_knn_fail_fast [DecidableEq T] [Inhabited T]
    (sq : ℚ → ℚ) (hyp : ℚ → ℚ → ℚ) (vend : List (T × ℕ) → List (T × ℕ))
    (train test : List (DataPoint T)) (k : ℕ) :
    (k_nearest_neighbor sq hyp vend train test k).isSome ↔ k ≤ train.length := by
  unfold k_nearest_neighbor
  split_ifs with h <;> simp <;> omega

/-- C4: degenerate-but-valid inputs yield the default label:
`bayes_plug_in` with an empty training set and `k_nearest_neighbor` with
`k = 0` both classify every test point as `default`. -/
theorem claim_C4_degenerate_default [LinearOrder T] [Inhabited T]
    (sq : ℚ → ℚ) (hyp : ℚ → ℚ → ℚ) (vend : List (T × ℕ) → List (T × ℕ))
    (train test : List (DataPoint T)) (hv : vend ([] : List (T × ℕ)) = []) :
    bayes_plug_in ([] : List (DataPoint T)) test =
      test.map (fun d => ⟨d, default⟩) ∧
    k_nearest_neighbor sq hyp vend train test 0 =
      some (test.map (fun d => ⟨d, default⟩)) := by
  constructor
  · rfl
  · unfold k_nearest_neighbor
    rw [if_neg (by omega)]
    congr 1
    apply List.map_congr_left
    intro d _
    simp [knnVotes, tally, hv, maxBy]

/-- Witness for C4 at a concrete training and test set. -/
theorem claim_C4_witness :
    (id ([] : List (ℕ × ℕ)) = []) ∧
    (bayes_plug_in ([] : List (DataPoint ℕ)) [⟨[⟨1, 0⟩], 7⟩] =
        [⟨⟨[⟨1, 0⟩], 7⟩, default⟩] ∧
      k_nearest_neighbor id (fun a _ => a) id
          [⟨[⟨3, 0⟩], (4 : ℕ)⟩] [⟨[⟨1, 0⟩], 7⟩] 0 =
        some [⟨⟨[⟨1, 0⟩], 7⟩, default⟩]) :=
  ⟨rfl, claim_C4_degenerate_default id (fun a _ => a) id
    [⟨[⟨3, 0⟩], (4 : ℕ)⟩] [⟨[⟨1, 0⟩], 7⟩] rfl⟩

/-- C9: each classifier returns exactly one result per test point, in test
order, the `i`-th referencing the `i`-th test point: whenever a run
completes, mapping each result to its `data` field gives back the test
list itself. -/
theorem claim_C9_results_in_test_order [LinearOrder T] [Inhabited T] [DecidableEq U]
    (sq : ℚ → ℚ) (hyp : ℚ → ℚ → ℚ) (vend : List (T × ℕ) → List (T × ℕ))
    (train test : List (DataPoint T)) (k : ℕ) (rng : ℕ → ℚ)
    (shuf : ℕ → List (RData U) → List (RData U))
    (rtrain rtest : List (RData U)) (lr thr : ℚ) :
    (bayes_plug_in train test).map (fun c => c.data) = test ∧
    (k_nearest_neighbor sq hyp vend train test k).map
        (fun out => out.map (fun c => c.data)) =
      (k_nearest_neighbor sq hyp vend train test k).map (fun _ => test) ∧
    (single_layer_perceptron rng shuf rtrain rtest lr thr).map
        (fun out => out.map (fun c => c.data)) =
      (single_layer_perceptron rng shuf rtrain rtest lr thr).map (fun _ => rtest) := by
  refine ⟨?_, ?_, ?_⟩
  · rw [bayes_plug_in, List.map_map]
    exact List.map_id _
  · unfold k_nearest_neighbor
    split_ifs with h
    · rfl
    · simp only [Option.map_some', List.map_map]
      exact congrArg some (List.map_id _)
  · cases rtrain with
    | nil => rfl
    | cons d0 tr =>
      simp only [single_layer_perceptron]
      cases hf : ((d0 :: tr).map (fun d => d.class')).find? (fun c => c ≠ d0.class') with
      | none => rfl
      | some neg =>
        simp only [Option.map_some', List.map_map]
        exact congrArg some (List.map_id _)

/-! ## Helper lemmas: the perceptron training loop -/

theorem slpLoop_passes_le [DecidableEq T] (shuf : ℕ → List (RData T) → List (RData T))
    (pos : T) (lr thr : ℚ) (n : ℕ) :
    ∀ (fuel : ℕ) (w : RPoint) (y : List (RData T)) (passes lastMis : ℕ),
      (slpLoop shuf pos lr thr n fuel w y passes lastMis).2.2.1 ≤ passes + fuel := by
  intro fuel
  induction fuel with
  | zero => intro w y passes lastMis; simp [slpLoop]
  | succ fuel ih =>
    intro w y passes lastMis
    rw [slpLoop]
    split_ifs with h
    · show passes + 1 ≤ passes + (fuel + 1)
      omega
    · exact le_trans (ih _ _ _ _) (by omega)

theorem slpLoop_stopped_early [DecidableEq T] (shuf : ℕ → List (RData T) → List (RData T))
    (pos : T) (lr thr : ℚ) (n : ℕ) :
    ∀ (fuel : ℕ) (w : RPoint) (y : List (RData T)) (passes lastMis : ℕ),
      (slpLoop shuf pos lr thr n fuel w y passes lastMis).2.2.1 < passes + fuel →
      ((slpLoop shuf pos lr thr n fuel w y passes lastMis).2.2.2 : ℚ) < thr * (n : ℚ) := by
  intro fuel
  induction fuel with
  | zero => intro w y passes lastMis h; simp [slpLoop] at h
  | succ fuel ih =>
    intro w y passes lastMis
    rw [slpLoop]
    split_ifs with h
    · intro _; exact h
    · intro hlt
      exact ih _ _ _ _ (by omega)

theorem slpLoop_nonpos_runs_out [DecidableEq T] (shuf : ℕ → List (RData T) → List (RData T))
    (pos : T) (lr thr : ℚ) (n : ℕ) (hthr : thr * (n : ℚ) ≤ 0) :
    ∀ (fuel : ℕ) (w : RPoint) (y : List (RData T)) (passes lastMis : ℕ),
      (slpLoop shuf pos lr thr n fuel w y passes lastMis).2.2.1 = passes + fuel := by
  intro fuel
  induction fuel with
  | zero => intro w y passes lastMis; simp [slpLoop]
  | succ fuel ih =>
    intro w y passes lastMis
    rw [slpLoop]
    split_ifs with h
    · exact absurd (lt_of_lt_of_le h hthr) (not_lt.mpr (by positivity))
    · rw [ih]
      omega

/-- C5 (amended): the training loop of `single_layer_perceptron` executes
at most 10,000 passes; if it stops before exhausting them, the last pass's
misclassification count was strictly below `threshold × n`; but because
the comparison is strict, a non-positive threshold (in particular
`threshold = 0.0`) never stops training early — the loop always runs all
10,000 passes, even when a pass achieves perfect separation. -/
theorem claim_C5_training_loop_cap [DecidableEq T]
    (shuf : ℕ → List (RData T) → List (RData T)) (pos : T) (lr thr : ℚ) (n : ℕ)
    (w : RPoint) (y : List (RData T)) :
    (slpLoop shuf pos lr thr n 10000 w y 0 0).2.2.1 ≤ 10000 ∧
    ((slpLoop shuf pos lr thr n 10000 w y 0 0).2.2.1 < 10000 →
      ((slpLoop shuf pos lr thr n 10000 w y 0 0).2.2.2 : ℚ) < thr * (n : ℚ)) ∧
    (thr ≤ 0 → (slpLoop shuf pos lr thr n 10000 w y 0 0).2.2.1 = 10000) := by
  refine ⟨?_, ?_, ?_⟩
  · simpa using slpLoop_passes_le shuf pos lr thr n 10000 w y 0 0
  · intro h
    exact slpLoop_stopped_early shuf pos lr thr n 10000 w y 0 0 (by simpa using h)
  · intro hthr
    have hnn : thr * (n : ℚ) ≤ 0 :=
      mul_nonpos_iff.mpr (Or.inr ⟨hthr, Nat.cast_nonneg n⟩)
    simpa using slpLoop_nonpos_runs_out shuf pos lr thr n hnn 10000 w y 0 0

/-- Witness for C5 (amended), at a two-point training set and
`threshold = 0`: the loop runs the full 10,000 passes. -/
theorem claim_C5_witness :
    (slpLoop (fun _ l => l) (0 : ℕ) 1 0 2 10000 [0, 1]
      (slpY [⟨[1], (0 : ℕ)⟩, ⟨[-1], 1⟩] (rscale (rsum [[1], [-1]]) ((2 : ℚ))⁻¹))
      0 0).2.2.1 = 10000 :=
  (claim_C5_training_loop_cap (fun _ l => l) (0 : ℕ) 1 0 2 [0, 1]
    (slpY [⟨[1], (0 : ℕ)⟩, ⟨[-1], 1⟩] (rscale (rsum [[1], [-1]]) ((2 : ℚ))⁻¹))).2.2
    (le_refl 0)

/-- Counterexample to C5 as stated: with `threshold = 0.0`, the initial
weights `[0, 1]` classify the augmented training set of
`{([1], 0), ([-1], 1)}` perfectly (a pass has zero misclassifications and
leaves the weights unchanged), yet the training loop does **not** stop
early: it runs all 10,000 passes, because `0 < 0.0 × n` is false. -/
theorem claim_C5_counterexample :
    slpPass (0 : ℕ) 1 [0, 1]
      (slpY [⟨[1], (0 : ℕ)⟩, ⟨[-1], 1⟩] (rscale (rsum [[1], [-1]]) ((2 : ℚ))⁻¹)) =
      ([0, 1], 0) ∧
    ¬ ((slpLoop (fun _ l => l) (0 : ℕ) 1 0 2 10000 [0, 1]
        (slpY [⟨[1], (0 : ℕ)⟩, ⟨[-1], 1⟩] (rscale (rsum [[1], [-1]]) ((2 : ℚ))⁻¹))
        0 0).2.2.1 < 10000) := by
  constructor
  · norm_num [slpPass, slpY, rsum, radd, rscale, rsub, rdot, raddA, signumQ]
  · rw [slpLoop_nonpos_runs_out (fun _ l => l) (0 : ℕ) 1 0 2 (by norm_num) 10000]
    omega

/-- C10: `multiclass_single_layer_perceptron` sizes every class's initial
weight vector from the first *test* point (`test_data[0].point.0.len() + 1`),
and consequently panics (returns `none`) on an empty test set whenever the
training set is non-empty. -/
theorem claim_C10_multiclass_weights_from_test [DecidableEq T] [Inhabited T]
    (σc : List T → List T) (rng : ℕ → ℕ → ℚ)
    (shuf : ℕ → List (RData T) → List (RData T))
    (train : List (RData T)) (lr thr : ℚ)
    (hσ : ∀ l : List T, (σc l).Perm l) :
    (train ≠ [] →
      multiclass_single_layer_perceptron σc rng shuf train [] lr thr = none) ∧
    (∀ (t0 : RData T) (rest : List (RData T)) (ws : List (T × RPoint)),
      mcInitWeights σc rng train (t0 :: rest) = some ws →
      ∀ e ∈ ws, e.2.length = t0.point.length + 1) := by
  constructor
  · intro ht
    have hc : mcClasses σc train ≠ [] := by
      intro h
      have hperm := hσ ((train.map (fun d => d.class')).dedup)
      rw [show σc ((train.map (fun d => d.class')).dedup) = mcClasses σc train from rfl,
        h] at hperm
      have hd : (train.map (fun d => d.class')).dedup = [] := List.Perm.eq_nil hperm.symm
      cases train with
      | nil => exact ht rfl
      | cons d tr =>
        have : d.class' ∈ (((d :: tr).map (fun d => d.class')).dedup) :=
          List.mem_dedup.mpr (by simp)
        rw [hd] at this
        simp at this
    cases hcc : mcClasses σc train with
    | nil => exact absurd hcc hc
    | cons c cs =>
      simp [multiclass_single_layer_perceptron, mcInitWeights, hcc]
  · intro t0 rest ws h e he
    rw [mcInitWeights] at h
    cases hcc : mcClasses σc train with
    | nil =>
      rw [hcc] at h
      obtain rfl : ([] : List (T × RPoint)) = ws := Option.some.injEq .. ▸ h
      simp at he
    | cons c cs =>
      rw [hcc] at h
      have hws : ((c :: cs).enum.map
          (fun ci => (ci.2, genWeights (rng ci.1) (t0.point.length + 1)))) = ws := by
        simpa using h
      rw [← hws] at he
      obtain ⟨ci, -, rfl⟩ := List.mem_map.mp he
      simp [genWeights]

/-- Witness for C10: a singleton training set with an empty test set
panics, and with a non-empty test set the single initial weight vector has
the test point's dimension plus one. -/
theorem claim_C10_witness :
    multiclass_single_layer_perceptron id (fun _ _ => 0) (fun _ l => l)
        [⟨[1], (0 : ℕ)⟩] [] 1 0 = none ∧
    (∀ e ∈ [((0 : ℕ), ([0, 0, 0] : RPoint))], e.2.length = ([2, 3] : RPoint).length + 1) :=
  ⟨(claim_C10_multiclass_weights_from_test id (fun _ _ => 0) (fun _ l => l)
      [⟨[1], (0 : ℕ)⟩] 1 0 (fun l => List.Perm.refl l)).1 (by simp),
   (claim_C10_multiclass_weights_from_test id (fun _ _ => 0) (fun _ l => l)
      [⟨[1], (0 : ℕ)⟩] 1 0 (fun l => List.Perm.refl l)).2 ⟨[2, 3], 5⟩ [] _ rfl⟩

/-! ## Helper lemmas: k-NN votes -/

theorem partialSortBy_perm (cmp : α → α → Ordering) :
    ∀ (k : ℕ) (l : List α), (partialSortBy cmp k l).Perm l := by
  intro k
  induction k with
  | zero => intro l; exact List.Perm.refl l
  | succ k ih =>
    intro l
    rcases hbm : bubbleMin cmp l with _ | ⟨y, ys⟩
    · simp only [partialSortBy, hbm]
      exact List.Perm.refl l
    · have hperm : (y :: ys).Perm l := hbm ▸ bubbleMin_perm cmp l
      simp only [partialSortBy, hbm]
      exact ((ih ys).cons y).trans hperm

theorem bump_ne_nil [DecidableEq T] (m : List (T × ℕ)) (c : T) : bump m c ≠ [] := by
  cases m with
  | nil => simp [bump]
  | cons kv rest =>
    cases kv with
    | mk k v =>
      rw [bump]
      split_ifs <;> simp

theorem foldl_bump_ne_nil [DecidableEq T] :
    ∀ (l : List T) (m : List (T × ℕ)), m ≠ [] → l.foldl bump m ≠ [] := by
  intro l
  induction l with
  | nil => intro m hm; simpa
  | cons c cs ih =>
    intro m hm
    rw [List.foldl_cons]
    exact ih _ (bump_ne_nil m c)

theorem tally_ne_nil [DecidableEq T] (l : List T) (hl : l ≠ []) : tally l ≠ [] := by
  cases l with
  | nil => exact absurd rfl hl
  | cons c cs =>
    rw [tally, List.foldl_cons]
    exact foldl_bump_ne_nil cs _ (bump_ne_nil [] c)

/-- C6 (amended): for a fixed vote-map iteration order the k-NN result is
fully determined (the embedding is a pure function of the inputs and the
order), and every predicted label carries a maximal vote count among the
tallied neighbor votes; but the tie among equal-count labels is broken by
the `HashMap`'s unspecified per-map iteration order, not by a fixed
encounter order (see the counterexample). -/
theorem claim_C6_knn_vote_maximality [DecidableEq T] [Inhabited T]
    (sq : ℚ → ℚ) (hyp : ℚ → ℚ → ℚ) (vend : List (T × ℕ) → List (T × ℕ))
    (hv : ∀ l : List (T × ℕ), (vend l).Perm l)
    (train test : List (DataPoint T)) (k : ℕ) (hk1 : 1 ≤ k) (hk : k ≤ train.length) :
    ∃ out, k_nearest_neighbor sq hyp vend train test k = some out ∧
      ∀ i, (hi : i < out.length) →
        ∃ v ∈ knnVotes sq hyp train out[i].data.point k,
          out[i].class_guess = v.1 ∧
          ∀ w ∈ knnVotes sq hyp train out[i].data.point k, w.2 ≤ v.2 := by
  have hguard : ¬ (train.length < k) := by omega
  refine ⟨_, by rw [k_nearest_neighbor, if_neg hguard], ?_⟩
  intro i hi
  have hit : i < test.length := by
    rw [List.length_map] at hi
    exact hi
  rw [List.getElem_map]
  show ∃ v ∈ knnVotes sq hyp train (test.get ⟨i, hit⟩).point k,
      (maxBy (fun a b => lcmp a.2 b.2)
          (vend (knnVotes sq hyp train (test.get ⟨i, hit⟩).point k))).elim
        default (fun v => v.1) = v.1 ∧
      ∀ w ∈ knnVotes sq hyp train (test.get ⟨i, hit⟩).point k, w.2 ≤ v.2
  have hvne : knnVotes sq hyp train (test.get ⟨i, hit⟩).point k ≠ [] := by
    apply tally_ne_nil
    intro hnil
    have hlen := congrArg List.length hnil
    rw [List.length_map, List.length_take, (partialSortBy_perm _ k _).length_eq,
      List.length_map] at hlen
    simp only [List.length_nil] at hlen
    omega
  have hvend : vend (knnVotes sq hyp train (test.get ⟨i, hit⟩).point k) ≠ [] := by
    intro h
    have hp := hv (knnVotes sq hyp train (test.get ⟨i, hit⟩).point k)
    rw [h] at hp
    exact hvne (List.Perm.eq_nil hp.symm)
  obtain ⟨m, hm, hmem, hall⟩ := maxBy_spec (fun v : T × ℕ => v.2) _ hvend
  refine ⟨m, (hv _).mem_iff.mp hmem, ?_, ?_⟩
  · rw [hm]
    rfl
  · intro w hw
    exact hall w ((hv _).mem_iff.mpr hw)

/-- Counterexample to C6 as stated: with training points `[0] ↦ 0` and
`[2] ↦ 1` and test point `[1]`, both neighbors are at distance 1, so with
`k = 2` each label gets one vote; two legitimate `HashMap` iteration
orders of that two-entry tally (identity and reversal) yield different
predicted labels, so the tie is not broken by a fixed encounter order. -/
theorem claim_C6_counterexample :
    (List.reverse [((0 : ℕ), (1 : ℕ)), (1, 1)]).Perm [((0 : ℕ), (1 : ℕ)), (1, 1)] ∧
    k_nearest_neighbor id (fun a _ => a) id
        [⟨[⟨0, 0⟩], (0 : ℕ)⟩, ⟨[⟨2, 0⟩], 1⟩] [⟨[⟨1, 0⟩], 5⟩] 2 ≠
      k_nearest_neighbor id (fun a _ => a) List.reverse
        [⟨[⟨0, 0⟩], (0 : ℕ)⟩, ⟨[⟨2, 0⟩], 1⟩] [⟨[⟨1, 0⟩], 5⟩] 2 := by
  constructor
  · exact List.reverse_perm _
  · norm_num [k_nearest_neighbor, knnVotes, pmag, psub, pneg, pscale, cscale, cmul, conj,
      csum, cadd, csub, czero, cmag, partialSortBy, bubbleMin, lcmp_eq_gt, tally, bump,
      maxBy]

/-- Witness for C6 (amended) at a concrete two-point training set, `k = 1`. -/
theorem claim_C6_witness :
    ∃ out, k_nearest_neighbor id (fun a _ => a) id
        [⟨[⟨0, 0⟩], (0 : ℕ)⟩, ⟨[⟨2, 0⟩], 1⟩] [⟨[⟨1, 0⟩], 5⟩] 1 = some out ∧
      ∀ i, (hi : i < out.length) →
        ∃ v ∈ knnVotes id (fun a _ => a)
            [⟨[⟨0, 0⟩], (0 : ℕ)⟩, ⟨[⟨2, 0⟩], 1⟩] out[i].data.point 1,
          out[i].class_guess = v.1 ∧
          ∀ w ∈ knnVotes id (fun a _ => a)
              [⟨[⟨0, 0⟩], (0 : ℕ)⟩, ⟨[⟨2, 0⟩], 1⟩] out[i].data.point 1, w.2 ≤ v.2 :=
  claim_C6_knn_vote_maximality id (fun a _ => a) id (fun l => List.Perm.refl l)
    [⟨[⟨0, 0⟩], (0 : ℕ)⟩, ⟨[⟨2, 0⟩], 1⟩] [⟨[⟨1, 0⟩], 5⟩] 1 (by omega) (by simp)

/-! ## Helper lemmas: the Bayes grouping map -/

/-- Association-list lookup, the `BTreeMap::get` view of the grouping. -/
def lookupG [DecidableEq T] (c : T) (m : List (T × List Point)) : Option (List Point) :=
  (m.find? (fun e => decide (e.1 = c))).map (fun e => e.2)

/-- Keys strictly ascending: the `BTreeMap` shape invariant. -/
def sortedKeys [LinearOrder T] (m : List (T × List Point)) : Prop :=
  List.Pairwise (fun a b => a.1 < b.1) m

/-- How one grouping step extends the points already collected for a key. -/
def mergeG (o : Option (List Point)) (fs : List Point) : Option (List Point) :=
  match o with
  | some v => some (v ++ fs)
  | none => if fs = [] then none else some fs

theorem mergeG_nil (o : Option (List Point)) : mergeG o [] = o := by
  cases o <;> simp [mergeG]

theorem insGrp_mem_keys [LinearOrder T] (m : List (T × List Point)) (c : T) (p : Point) :
    ∀ e ∈ insGrp m c p, e.1 = c ∨ ∃ f ∈ m, e.1 = f.1 := by
  induction m with
  | nil => intro e he; simp [insGrp] at he; simp [he]
  | cons kv rest ih =>
    cases kv with
    | mk k v =>
      intro e he
      rw [insGrp] at he
      split_ifs at he with h1 h2
      · rcases List.mem_cons.mp he with rfl | he'
        · exact Or.inr ⟨(k, v), List.mem_cons_self _ _, rfl⟩
        · exact Or.inr ⟨e, List.mem_cons_of_mem _ he', rfl⟩
      · rcases List.mem_cons.mp he with rfl | he'
        · exact Or.inl rfl
        · exact Or.inr ⟨e, he', rfl⟩
      · rcases List.mem_cons.mp he with rfl | he'
        · exact Or.inr ⟨(k, v), List.mem_cons_self _ _, rfl⟩
        · rcases ih e he' with h | ⟨f, hf, hef⟩
          · exact Or.inl h
          · exact Or.inr ⟨f, List.mem_cons_of_mem _ hf, hef⟩

theorem insGrp_sorted [LinearOrder T] (m : List (T × List Point)) (c : T) (p : Point)
    (hm : sortedKeys m) : sortedKeys (insGrp m c p) := by
  induction m with
  | nil => simp [insGrp, sortedKeys]
  | cons kv rest ih =>
    cases kv with
    | mk k v =>
      obtain ⟨hk, hrest⟩ := List.pairwise_cons.mp hm
      rw [insGrp]
      split_ifs with h1 h2
      · exact List.pairwise_cons.mpr ⟨hk, hrest⟩
      · refine List.pairwise_cons.mpr ⟨?_, List.pairwise_cons.mpr ⟨hk, hrest⟩⟩
        intro e he
        rcases List.mem_cons.mp he with rfl | he'
        · exact h2
        · exact lt_trans h2 (hk e he')
      · refine List.pairwise_cons.mpr ⟨?_, ih hrest⟩
        intro e he
        rcases insGrp_mem_keys rest c p e he with hec | ⟨f, hf, hef⟩
        · rw [hec]
          rcases lt_trichotomy k c with h | h | h
          · exact h
          · exact absurd h.symm h1
          · exact absurd h h2
        · rw [hef]
          exact hk f hf

theorem lookupG_none_of_lt [LinearOrder T] (m : List (T × List Point)) (c : T)
    (hlt : ∀ e ∈ m, c < e.1) : lookupG c m = none := by
  induction m with
  | nil => rfl
  | cons kv rest ih =>
    rw [lookupG, List.find?_cons_of_neg, ← lookupG]
    · exact ih (fun e he => hlt e (List.mem_cons_of_mem _ he))
    · have := hlt kv (List.mem_cons_self _ _)
      simp
      exact fun h => absurd (h ▸ this) (lt_irrefl _)

theorem lookupG_cons [DecidableEq T] (c k : T) (v : List Point)
    (rest : List (T × List Point)) :
    lookupG c ((k, v) :: rest) = if k = c then some v else lookupG c rest := by
  rw [lookupG, List.find?_cons]
  by_cases h : k = c
  · simp [h, lookupG]
  · simp [h, lookupG]

theorem insGrp_lookupG_self [LinearOrder T] (m : List (T × List Point)) (c : T) (p : Point)
    (hm : sortedKeys m) :
    lookupG c (insGrp m c p) = some ((lookupG c m).getD [] ++ [p]) := by
  induction m with
  | nil => simp [insGrp, lookupG_cons, lookupG]
  | cons kv rest ih =>
    cases kv with
    | mk k v =>
      obtain ⟨hk, hrest⟩ := List.pairwise_cons.mp hm
      rw [insGrp]
      split_ifs with h1 h2
      · rw [lookupG_cons, if_pos h1.symm, lookupG_cons, if_pos h1.symm]
        simp
      · rw [lookupG_cons, if_pos rfl]
        have hnone : lookupG c ((k, v) :: rest) = none := by
          apply lookupG_none_of_lt
          intro e he
          rcases List.mem_cons.mp he with rfl | he'
          · exact h2
          · exact lt_trans h2 (hk e he')
        rw [hnone]
        simp
      · rw [lookupG_cons, if_neg (fun h => h1 h.symm), lookupG_cons,
          if_neg (fun h => h1 h.symm), ih hrest]

theorem insGrp_lookupG_other [LinearOrder T] (m : List (T × List Point)) (c c2 : T)
    (p : Point) (hne : c2 ≠ c) : lookupG c2 (insGrp m c p) = lookupG c2 m := by
  induction m with
  | nil =>
    rw [insGrp, lookupG_cons, if_neg (fun h => hne h.symm)]
  | cons kv rest ih =>
    cases kv with
    | mk k v =>
      rw [insGrp]
      split_ifs with h1 h2
      · have hkc2 : ¬ (k = c2) := fun h => hne (h1.trans h).symm
        rw [lookupG_cons, if_neg hkc2, lookupG_cons, if_neg hkc2]
      · rw [lookupG_cons, if_neg (fun h => hne h.symm)]
      · rw [lookupG_cons, lookupG_cons]
        split_ifs with h3
        · rfl
        · exact ih

theorem lookupG_eq_of_mem [LinearOrder T] (m : List (T × List Point)) (hm : sortedKeys m)
    (c : T) (pts : List Point) (h : (c, pts) ∈ m) : lookupG c m = some pts := by
  induction m with
  | nil => simp at h
  | cons kv rest ih =>
    cases kv with
    | mk k v =>
      obtain ⟨hk, hrest⟩ := List.pairwise_cons.mp hm
      rcases List.mem_cons.mp h with heq | hmem
      · have hc : c = k := congrArg Prod.fst heq
        have hp : pts = v := congrArg Prod.snd heq
        rw [lookupG_cons, if_pos hc.symm, hp]
      · have hkc : k < c := hk (c, pts) hmem
        rw [lookupG_cons, if_neg (fun hh => absurd (hh ▸ hkc) (lt_irrefl _)),
          ih hrest hmem]

theorem mem_of_lookupG [DecidableEq T] (m : List (T × List Point)) (c : T)
    (pts : List Point) (h : lookupG c m = some pts) : (c, pts) ∈ m := by
  induction m with
  | nil => simp [lookupG] at h
  | cons kv rest ih =>
    cases kv with
    | mk k v =>
      rw [lookupG_cons] at h
      split_ifs at h with hk
      · injection h with hv
        subst hk
        subst hv
        exact List.mem_cons_self _ _
      · exact List.mem_cons_of_mem _ (ih h)

theorem bayesGroups_go [LinearOrder T] :
    ∀ (l : List (DataPoint T)) (m : List (T × List Point)), sortedKeys m →
      sortedKeys (l.foldl (fun m d => insGrp m d.class' d.point) m) ∧
      ∀ c, lookupG c (l.foldl (fun m d => insGrp m d.class' d.point) m) =
        mergeG (lookupG c m)
          ((l.filter (fun d => d.class' = c)).map (fun d => d.point)) := by
  intro l
  induction l with
  | nil =>
    intro m hm
    refine ⟨hm, fun c => ?_⟩
    rw [List.foldl_nil, List.filter_nil, List.map_nil, mergeG_nil]
  | cons d l ih =>
    intro m hm
    rw [List.foldl_cons]
    obtain ⟨ihs, ihl⟩ := ih (insGrp m d.class' d.point) (insGrp_sorted m _ _ hm)
    refine ⟨ihs, fun c => ?_⟩
    rw [ihl c]
    by_cases hc : d.class' = c
    · subst hc
      rw [insGrp_lookupG_self m _ _ hm, List.filter_cons_of_pos (by simp), List.map_cons]
      cases hl : lookupG d.class' m with
      | none => simp [mergeG]
      | some v => simp [mergeG]
    · rw [insGrp_lookupG_other m _ _ _ (fun hh => hc hh.symm),
        List.filter_cons_of_neg (by simpa using hc)]

theorem bayesGroups_sorted [LinearOrder T] (train : List (DataPoint T)) :
    sortedKeys (bayesGroups train) :=
  (bayesGroups_go train [] (by simp [sortedKeys])).1

theorem bayesGroups_lookup [LinearOrder T] (train : List (DataPoint T)) (c : T) :
    lookupG c (bayesGroups train) =
      mergeG none ((train.filter (fun d => d.class' = c)).map (fun d => d.point)) :=
  (bayesGroups_go train [] (by simp [sortedKeys])).2 c

theorem bayesGroups_mem_char [LinearOrder T] (train : List (DataPoint T)) (c : T)
    (pts : List Point) (h : (c, pts) ∈ bayesGroups train) :
    pts = (train.filter (fun d => d.class' = c)).map (fun d => d.point) ∧
    train.filter (fun d => d.class' = c) ≠ [] := by
  have hl := lookupG_eq_of_mem _ (bayesGroups_sorted train) c pts h
  rw [bayesGroups_lookup] at hl
  by_cases hf : train.filter (fun d => d.class' = c) = []
  · rw [hf] at hl
    simp [mergeG] at hl
  · have hfm : ((train.filter (fun d => d.class' = c)).map (fun d => d.point)) ≠ [] := by
      simpa using hf
    simp only [mergeG, if_neg hfm] at hl
    exact ⟨(Option.some.inj hl).symm, hf⟩

theorem bayesGroups_mem_of_mem [LinearOrder T] (train : List (DataPoint T))
    (d : DataPoint T) (hd : d ∈ train) :
    (d.class', (train.filter (fun d2 => d2.class' = d.class')).map (fun d2 => d2.point)) ∈
      bayesGroups train := by
  have hne : train.filter (fun d2 => d2.class' = d.class') ≠ [] := by
    intro hnil
    have hdm : d ∈ train.filter (fun d2 => d2.class' = d.class') :=
      List.mem_filter.mpr ⟨hd, by simp⟩
    rw [hnil] at hdm
    simp at hdm
  apply mem_of_lookupG
  rw [bayesGroups_lookup]
  simp only [mergeG]
  rw [if_neg (by simpa using hne)]

theorem specScore_mem_results [LinearOrder T] (train : List (DataPoint T)) (x : Point)
    (c : T) (pts : List Point) (hg : (c, pts) ∈ bayesGroups train) :
    (c, specScore train c x) ∈
      (bayesWeights train).map (fun w => (w.1, csub (pdot w.2.1 x) w.2.2)) := by
  obtain ⟨hpts, -⟩ := bayesGroups_mem_char train c pts hg
  subst hpts
  rw [bayesWeights]
  rw [List.map_map]
  exact List.mem_map_of_mem _ hg

theorem results_entry_spec [LinearOrder T] (train : List (DataPoint T)) (x : Point)
    (r : T × CComplex)
    (hr : r ∈ (bayesWeights train).map (fun w => (w.1, csub (pdot w.2.1 x) w.2.2))) :
    (∃ d ∈ train, d.class' = r.1) ∧ r.2 = specScore train r.1 x := by
  obtain ⟨w, hw, rfl⟩ := List.mem_map.mp hr
  rw [bayesWeights] at hw
  obtain ⟨g, hg, rfl⟩ := List.mem_map.mp hw
  obtain ⟨c, pts⟩ := g
  obtain ⟨hpts, hfne⟩ := bayesGroups_mem_char train c pts hg
  subst hpts
  constructor
  · obtain ⟨dd, hdd⟩ := List.exists_mem_of_ne_nil _ hfne
    obtain ⟨hdt, hdc⟩ := List.mem_filter.mp hdd
    refine ⟨dd, hdt, ?_⟩
    show dd.class' = c
    simpa using hdc
  · rfl

/-- C2: `bayes_plug_in` classifies every test point by the spec's plug-in
pipeline: training points are partitioned by label, each label's centroid
`μ` is the mean of its vectors, `w = 2·conjugate(μ)` and
`w₀ = μ·conjugate(μ)`, and the predicted label is one carried by the
training set whose score `w·x − w₀` has maximal real part. -/
theorem claim_C2_bayes_plug_in_spec [LinearOrder T] [Inhabited T]
    (train test : List (DataPoint T)) (x : Point) (h : train ≠ []) :
    bayes_plug_in train test = test.map (fun d => ⟨d, bayesGuess train d.point⟩) ∧
    (∃ d ∈ train, d.class' = bayesGuess train x) ∧
    ∀ c ∈ train.map (fun d => d.class'),
      (specScore train c x).re ≤ (specScore train (bayesGuess train x) x).re := by
  obtain ⟨d0, hd0⟩ : ∃ d, d ∈ train := by
    cases train with
    | nil => exact absurd rfl h
    | cons a t => exact ⟨a, List.mem_cons_self _ _⟩
  have hg0 := bayesGroups_mem_of_mem train d0 hd0
  have hr0 := specScore_mem_results train x d0.class' _ hg0
  have hrne :
      (bayesWeights train).map (fun w => (w.1, csub (pdot w.2.1 x) w.2.2)) ≠ [] := by
    intro hnil
    rw [hnil] at hr0
    simp at hr0
  obtain ⟨m, hm, hmem, hall⟩ := maxBy_spec (fun r : T × CComplex => r.2.re) _ hrne
  have hm2 : maxBy (fun (a b : T × CComplex) => lcmp a.2.re b.2.re)
      ((bayesWeights train).map (fun w => (w.1, csub (pdot w.2.1 x) w.2.2))) = some m := hm
  have hguess : bayesGuess train x = m.1 := by
    show (maxBy (fun (a b : T × CComplex) => lcmp a.2.re b.2.re)
        ((bayesWeights train).map (fun w => (w.1, csub (pdot w.2.1 x) w.2.2)))).elim
      default (fun r => r.1) = m.1
    rw [hm2]
    rfl
  obtain ⟨⟨dm, hdm, hdmc⟩, hmval⟩ := results_entry_spec train x m hmem
  refine ⟨rfl, ⟨dm, hdm, by rw [hdmc, hguess]⟩, ?_⟩
  intro c hc
  obtain ⟨d, hdt, hdc⟩ := List.mem_map.mp hc
  have hgc := bayesGroups_mem_of_mem train d hdt
  have hrc := specScore_mem_results train x d.class' _ hgc
  rw [hdc] at hrc
  have hle := hall _ hrc
  rw [hguess, ← hmval]
  exact hle

/-- Witness for C2 at a concrete two-class training set and test point. -/
theorem claim_C2_witness :
    bayes_plug_in [⟨[⟨0, 0⟩], (0 : ℕ)⟩, ⟨[⟨2, 0⟩], 1⟩] [⟨[⟨1, 0⟩], 9⟩] =
      [⟨[⟨1, 0⟩], 9⟩].map
        (fun d => ⟨d, bayesGuess [⟨[⟨0, 0⟩], (0 : ℕ)⟩, ⟨[⟨2, 0⟩], 1⟩] d.point⟩) ∧
    (∃ d ∈ ([⟨[⟨0, 0⟩], (0 : ℕ)⟩, ⟨[⟨2, 0⟩], 1⟩] : List (DataPoint ℕ)),
      d.class' = bayesGuess [⟨[⟨0, 0⟩], (0 : ℕ)⟩, ⟨[⟨2, 0⟩], 1⟩] [⟨1, 0⟩]) ∧
    ∀ c ∈ ([⟨[⟨0, 0⟩], (0 : ℕ)⟩, ⟨[⟨2, 0⟩], 1⟩] : List (DataPoint ℕ)).map
        (fun d => d.class'),
      (specScore [⟨[⟨0, 0⟩], (0 : ℕ)⟩, ⟨[⟨2, 0⟩], 1⟩] c [⟨1, 0⟩]).re ≤
        (specScore [⟨[⟨0, 0⟩], (0 : ℕ)⟩, ⟨[⟨2, 0⟩], 1⟩]
          (bayesGuess [⟨[⟨0, 0⟩], (0 : ℕ)⟩, ⟨[⟨2, 0⟩], 1⟩] [⟨1, 0⟩]) [⟨1, 0⟩]).re :=
  claim_C2_bayes_plug_in_spec [⟨[⟨0, 0⟩], (0 : ℕ)⟩, ⟨[⟨2, 0⟩], 1⟩] [⟨[⟨1, 0⟩], 9⟩]
    [⟨1, 0⟩] (by simp)

end CC
